import Mathlib

/-!
Verification of the word-placement engine of the `sopa_libros` word-search
generator, a shallow embedding of `wordsearch/grid_generation.py`
(`place_words_on_grid`) and the difficulty table of
`wordsearch/difficulty_levels.py`.

Modelling choices:
* A grid cell is `Option Char`: `none` is the Python empty string marker `''`,
  `some ch` a written letter.  A grid is a list of rows.
* Words are `List Char`; `w.upper()` is `List.map Char.toUpper`.
* Python's global `random` module is an explicit state `σ` threaded through the
  computation, with two oracle functions supplied by the caller:
  `shuffle` (modelling `random.shuffle`, which permutes the candidate list) and
  `choice` (modelling `random.choice("ABC...Z")`, which returns one letter).
  Facts the Python library guarantees (shuffle returns a permutation, choice
  returns an element of the alphabet) appear as hypotheses where needed.
* Coordinates are `Int` (Python ints may step negative); the source checks
  `0 <= rr < size` before every read, and writes only along a candidate that
  passed that check, so all conversions `Int.toNat` happen on nonnegative
  in-range values.
* `sorted(words, key=lambda w: -len(w))` (a stable descending sort by length)
  is `List.mergeSort` with the comparison `len b ≤ len a`, which Lean's
  standard library guarantees to be a stable sort.
-/

namespace SopaLibros

/-- One candidate `(r, c, dr, dc)`: start cell and direction. -/
structure Cand where
  r : Int
  c : Int
  dr : Int
  dc : Int
deriving DecidableEq, Repr

/-- A recorded placement `(w, (r, c, dr, dc))` as appended to `placed`. -/
structure Placement where
  word : List Char
  pos : Cand
deriving DecidableEq, Repr

/-- A grid: rows of cells, a cell `none` (empty, `''`) or `some ch`. -/
abbrev Grid := List (List (Option Char))

/-- One difficulty entry of `difficulty_settings` in `difficulty_levels.py`. -/
structure DifficultySettings where
  name : String
  grid_min : Nat
  grid_max : Nat
  grid_default : Nat
  directions : List (Int × Int)
  allow_reversed : Bool
deriving DecidableEq, Repr

/-- The `DifficultyLevel` enum. -/
inductive DifficultyLevel where
  | easy
  | medium
  | hard
deriving DecidableEq, Repr

/-- The `difficulty_settings` table of `difficulty_levels.py`. -/
def difficulty_settings : DifficultyLevel → DifficultySettings
  | .easy =>
    { name := "Fácil", grid_min := 8, grid_max := 12, grid_default := 10,
      directions := [(0, 1), (1, 0)], allow_reversed := false }
  | .medium =>
    { name := "Medio", grid_min := 12, grid_max := 15, grid_default := 14,
      directions := [(0, 1), (1, 0), (1, 1), (1, -1)], allow_reversed := false }
  | .hard =>
    { name := "Difícil", grid_min := 15, grid_max := 20, grid_default := 18,
      directions := [(0, 1), (0, -1), (1, 0), (-1, 0),
                     (1, 1), (1, -1), (-1, 1), (-1, -1)],
      allow_reversed := true }

/-- `max_attempts = 500` of `place_words_on_grid`. -/
def max_attempts : Nat := 500

/-- The filler alphabet `"ABCDEFGHIJKLMNOPQRSTUVWXYZ"`. -/
def ALPHABET : List Char := "ABCDEFGHIJKLMNOPQRSTUVWXYZ".toList

/-- Reading `grid[r][c]`; callers of the source index only after the bounds
check `0 <= r < size and 0 <= c < size`, where `toNat` is faithful. -/
def getCell (g : Grid) (r c : Int) : Option Char :=
  (g.getD r.toNat []).getD c.toNat none

/-- Writing `grid[r][c] = ch`; the source writes only along a candidate whose
cells all passed the bounds check, where `toNat` is faithful. -/
def setCell (g : Grid) (r c : Int) (ch : Char) : Grid :=
  g.set r.toNat ((g.getD r.toNat []).set c.toNat (some ch))

/-- The bounds test `0 <= rr < size and 0 <= cc < size`. -/
def inBoundsB (size : Nat) (r c : Int) : Bool :=
  decide (0 ≤ r) && decide (r < (size : Int)) &&
    decide (0 ≤ c) && decide (c < (size : Int))

/-- The first inner loop of `place_words_on_grid`: walk the letters of `w`
from `(rr, cc)` stepping `(dr, dc)`; `false` as soon as a cell is out of
bounds or holds a letter other than the one the word needs
(`grid[rr][cc] not in ('', ch)`). -/
def checkFits (g : Grid) (size : Nat) :
    List Char → Int → Int → Int → Int → Bool
  | [], _, _, _, _ => true
  | ch :: rest, rr, cc, dr, dc =>
    if inBoundsB size rr cc then
      if getCell g rr cc = none ∨ getCell g rr cc = some ch then
        checkFits g size rest (rr + dr) (cc + dc) dr dc
      else false
    else false

/-- The commit loop: write the letters of `w` into the grid from `(rr, cc)`
stepping `(dr, dc)`. -/
def writeWord (g : Grid) : List Char → Int → Int → Int → Int → Grid
  | [], _, _, _, _ => g
  | ch :: rest, rr, cc, dr, dc =>
    writeWord (setCell g rr cc ch) rest (rr + dr) (cc + dc) dr dc

/-- The scan over shuffled candidates: commit the first one that fits,
returning the updated grid and the candidate; `none` if no candidate fits. -/
def tryCandidates (g : Grid) (size : Nat) (w : List Char) :
    List Cand → Option (Grid × Cand)
  | [] => none
  | cand :: rest =>
    if checkFits g size w cand.r cand.c cand.dr cand.dc then
      some (writeWord g w cand.r cand.c cand.dr cand.dc, cand)
    else tryCandidates g size w rest

/-- The candidate enumeration: every `(r, c)` crossed with every direction,
in the source's loop order. -/
def buildCandidates (size : Nat) (directions : List (Int × Int)) : List Cand :=
  (List.range size).flatMap fun r =>
    (List.range size).flatMap fun c =>
      directions.map fun d => ⟨(r : Int), (c : Int), d.1, d.2⟩

/-- `w.upper()`. -/
def upperWord (w : List Char) : List Char := w.map Char.toUpper

/-- The stable descending-length sort
`sorted(words, key=lambda w: -len(w))`. -/
def sortWords (words : List (List Char)) : List (List Char) :=
  words.mergeSort fun a b => decide (b.length ≤ a.length)

section WithRng

variable {σ : Type}

/-- The main word loop of `place_words_on_grid`: for each word, uppercase it,
build and shuffle the candidates, scan them; on the first failure return
`None` (after stepping the `attempts` counter past its never-effective
`max_attempts` test). -/
def placeLoop (shuffle : List Cand → σ → List Cand × σ) (size : Nat)
    (directions : List (Int × Int)) :
    List (List Char) → Grid → List Placement → Nat → σ →
      Option (Grid × List Placement) × σ
  | [], g, placed, _, s => (some (g, placed), s)
  | w :: rest, g, placed, attempts, s =>
    let wU := upperWord w
    let sh := shuffle (buildCandidates size directions) s
    match tryCandidates g size wU sh.1 with
    | some gc =>
      placeLoop shuffle size directions rest gc.1
        (placed ++ [⟨wU, gc.2⟩]) attempts sh.2
    | none =>
      if attempts + 1 > max_attempts then (none, sh.2) else (none, sh.2)

/-- The fill loop over one row: each empty cell gets a
`random.choice(ALPHABET)` letter. -/
def fillRow (choice : σ → Char × σ) :
    List (Option Char) → σ → List (Option Char) × σ
  | [], s => ([], s)
  | none :: rest, s =>
    let cs := choice s
    let rs := fillRow choice rest cs.2
    (some cs.1 :: rs.1, rs.2)
  | some ch :: rest, s =>
    let rs := fillRow choice rest s
    (some ch :: rs.1, rs.2)

/-- The fill loop over the whole grid (row-major, as in the source). -/
def fillGrid (choice : σ → Char × σ) : Grid → σ → Grid × σ
  | [], s => ([], s)
  | row :: rows, s =>
    let fr := fillRow choice row s
    let frs := fillGrid choice rows fr.2
    (fr.1 :: frs.1, frs.2)

/-- The body of `place_words_on_grid` abstracted over the settings record it
looks up (`settings = difficulty_settings[difficulty]`): pick the size,
read the fields the source reads (`allow_reversed` is read and never used),
build the empty grid, sort, run the word loop, then fill. -/
def place_words_core (shuffle : List Cand → σ → List Cand × σ)
    (choice : σ → Char × σ) (settings : DifficultySettings)
    (words : List (List Char)) (grid_size : Option Nat) (s0 : σ) :
    Option (Grid × List Placement) × σ :=
  let size := grid_size.getD settings.grid_default
  let directions := settings.directions
  let _allow_reversed := settings.allow_reversed
  let grid : Grid := List.replicate size (List.replicate size none)
  let words_sorted := sortWords words
  match placeLoop shuffle size directions words_sorted grid [] 0 s0 with
  | (none, s) => (none, s)
  | (some (g, placed), s) =>
    let fg := fillGrid choice g s
    (some (fg.1, placed), fg.2)

/-- `place_words_on_grid(words, difficulty, grid_size=None)`. -/
def place_words_on_grid (shuffle : List Cand → σ → List Cand × σ)
    (choice : σ → Char × σ) (words : List (List Char))
    (difficulty : DifficultyLevel) (grid_size : Option Nat) (s0 : σ) :
    Option (Grid × List Placement) × σ :=
  place_words_core shuffle choice (difficulty_settings difficulty)
    words grid_size s0

end WithRng

/-! ### Specification-side helpers -/

/-- The list of cells a candidate of length `n` starting at `(r, c)` and
stepping `(dr, dc)` visits. -/
def posList : Nat → Int → Int → Int → Int → List (Int × Int)
  | 0, _, _, _, _ => []
  | n + 1, r, c, dr, dc => (r, c) :: posList n (r + dr) (c + dc) dr dc

/-- Read `n` consecutive cells starting at `(r, c)` stepping `(dr, dc)`. -/
def readCells (g : Grid) : Nat → Int → Int → Int → Int → List (Option Char)
  | 0, _, _, _, _ => []
  | n + 1, r, c, dr, dc => getCell g r c :: readCells g n (r + dr) (c + dc) dr dc

/-- All `n` cells from `(r, c)` stepping `(dr, dc)` are in bounds. -/
def cellsInBounds (size : Nat) : Nat → Int → Int → Int → Int → Bool
  | 0, _, _, _, _ => true
  | n + 1, r, c, dr, dc =>
    inBoundsB size r c && cellsInBounds size n (r + dr) (c + dc) dr dc

/-- The grid is a `size × size` matrix. -/
def gridDims (g : Grid) (size : Nat) : Prop :=
  g.length = size ∧ ∀ row ∈ g, row.length = size

/-- An ASCII alphabetic character (`A`–`Z` or `a`–`z`). -/
def isAsciiAlpha (c : Char) : Bool :=
  (65 ≤ c.toNat && c.toNat ≤ 90) || (97 ≤ c.toNat && c.toNat ≤ 122)

/-- A placement is good for a grid: reading its cells back spells its word,
all its cells are in bounds, and its direction is one of the allowed ones. -/
def goodPlacement (size : Nat) (directions : List (Int × Int)) (g : Grid)
    (p : Placement) : Prop :=
  readCells g p.word.length p.pos.r p.pos.c p.pos.dr p.pos.dc =
      p.word.map some ∧
  cellsInBounds size p.word.length p.pos.r p.pos.c p.pos.dr p.pos.dc = true ∧
  (p.pos.dr, p.pos.dc) ∈ directions

/-- Every written (non-empty) cell of the grid holds a letter `A`–`Z`. -/
def lettersOk (g : Grid) : Prop :=
  ∀ row ∈ g, ∀ cell ∈ row, ∀ x : Char, cell = some x → x ∈ ALPHABET

/-- Observer of the attempts counter: `true` iff the run reaches the
source's `attempts > max_attempts` test with the test true (the `return
None` inside the `if`, rather than the one after it). -/
def placeLoopHitsCap {σ : Type} (shuffle : List Cand → σ → List Cand × σ)
    (size : Nat) (directions : List (Int × Int)) :
    List (List Char) → Grid → Nat → σ → Bool
  | [], _, _, _ => false
  | w :: rest, g, attempts, s =>
    let wU := upperWord w
    let sh := shuffle (buildCandidates size directions) s
    match tryCandidates g size wU sh.1 with
    | some gc =>
      placeLoopHitsCap shuffle size directions rest gc.1 attempts sh.2
    | none => decide (attempts + 1 > max_attempts)

/-! ### Fallible (explicitly bounds-checked) grid access

`getCellSafe` returns `none` when the read would index outside the grid;
`checkFitsSafe` and `writeWordSafe` are the two inner loops of the source
with every read and write routed through such fallible access.  Proving
them equal to `some` of the total versions states that the source's bounds
test screens every access. -/

def getCellSafe (g : Grid) (r c : Int) : Option (Option Char) :=
  if 0 ≤ r ∧ 0 ≤ c then
    match g[r.toNat]? with
    | some row => row[c.toNat]?
    | none => none
  else none

def checkFitsSafe (g : Grid) (size : Nat) :
    List Char → Int → Int → Int → Int → Option Bool
  | [], _, _, _, _ => some true
  | ch :: rest, rr, cc, dr, dc =>
    if inBoundsB size rr cc then
      match getCellSafe g rr cc with
      | none => none
      | some cell =>
        if cell = none ∨ cell = some ch then
          checkFitsSafe g size rest (rr + dr) (cc + dc) dr dc
        else some false
    else some false

def writeWordSafe (size : Nat) (g : Grid) :
    List Char → Int → Int → Int → Int → Option Grid
  | [], _, _, _, _ => some g
  | ch :: rest, rr, cc, dr, dc =>
    if inBoundsB size rr cc then
      writeWordSafe size (setCell g rr cc ch) rest (rr + dr) (cc + dc) dr dc
    else none

/-! ### Concrete oracles and runs for witnesses -/

/-- Identity shuffle oracle: a degenerate but admissible `random.shuffle`
(it returns a permutation of its input). -/
def idShuffle : List Cand → Unit → List Cand × Unit := fun l s => (l, s)

/-- Constant `random.choice` oracle returning `'A'` (an element of the
alphabet, as `random.choice` guarantees). -/
def constChoiceA : Unit → Char × Unit := fun _ => ('A', ())

/-- Output grid of the one-word concrete run. -/
def catGrid : Grid :=
  [[some 'C', some 'A', some 'T'],
   [some 'A', some 'A', some 'A'],
   [some 'A', some 'A', some 'A']]

/-- Output placements of the one-word concrete run. -/
def catPlaced : List Placement := [⟨['C', 'A', 'T'], ⟨0, 0, 0, 1⟩⟩]

/-- Output grid of the crossing two-word concrete run. -/
def catCarGrid : Grid :=
  [[some 'C', some 'A', some 'T'],
   [some 'A', some 'A', some 'A'],
   [some 'R', some 'A', some 'A']]

/-- Output placements of the crossing two-word concrete run. -/
def catCarPlaced : List Placement :=
  [⟨['C', 'A', 'T'], ⟨0, 0, 0, 1⟩⟩, ⟨['C', 'A', 'R'], ⟨0, 0, 1, 0⟩⟩]

/-! ### Grid dimension lemmas -/

theorem gridDims_replicate (size : Nat) :
    gridDims (List.replicate size (List.replicate size (none : Option Char)))
      size := by
  refine ⟨List.length_replicate .., fun row hrow => ?_⟩
  rw [List.eq_of_mem_replicate hrow]
  exact List.length_replicate ..

theorem gridDims_setCell {g : Grid} {size : Nat} (h : gridDims g size)
    (r c : Int) (ch : Char) : gridDims (setCell g r c ch) size := by
  obtain ⟨hlen, hrow⟩ := h
  refine ⟨by simpa [setCell], fun row hmem => ?_⟩
  rcases Nat.lt_or_ge r.toNat g.length with hlt | hge
  · rcases List.mem_or_eq_of_mem_set hmem with hm | rfl
    · exact hrow _ hm
    · rw [List.length_set, List.getD_eq_getElem?_getD,
        List.getElem?_eq_getElem hlt, Option.getD_some]
      exact hrow _ (List.getElem_mem hlt)
  · rw [setCell, List.set_eq_of_length_le hge] at hmem
    exact hrow _ hmem

theorem gridDims_writeWord {g : Grid} {size : Nat} (h : gridDims g size) :
    ∀ (w : List Char) (r c dr dc : Int),
      gridDims (writeWord g w r c dr dc) size := by
  intro w
  induction w generalizing g with
  | nil => intro r c dr dc; exact h
  | cons ch rest ih =>
    intro r c dr dc
    exact ih (gridDims_setCell h r c ch) _ _ _ _

/-! ### Cell access lemmas -/

theorem inBoundsB_iff {size : Nat} {r c : Int} :
    inBoundsB size r c = true ↔
      0 ≤ r ∧ r < (size : Int) ∧ 0 ≤ c ∧ c < (size : Int) := by
  simp [inBoundsB, and_assoc]

theorem getCell_congr_toNat {g : Grid} {r c r' c' : Int}
    (hr : r.toNat = r'.toNat) (hc : c.toNat = c'.toNat) :
    getCell g r c = getCell g r' c' := by
  rw [getCell, getCell, hr, hc]

theorem getCell_setCell_self {g : Grid} {size : Nat} (h : gridDims g size)
    {r c : Int} (hr0 : 0 ≤ r) (hr : r < (size : Int)) (hc0 : 0 ≤ c)
    (hc : c < (size : Int)) (ch : Char) :
    getCell (setCell g r c ch) r c = some ch := by
  obtain ⟨hlen, hrow⟩ := h
  have hrn : r.toNat < g.length := by omega
  have hcn : c.toNat < (g[r.toNat]?.getD []).length := by
    rw [List.getElem?_eq_getElem hrn, Option.getD_some,
      hrow _ (List.getElem_mem hrn)]
    omega
  rw [getCell, setCell]
  simp only [List.getD_eq_getElem?_getD]
  rw [List.getElem?_set_self hrn, Option.getD_some,
    List.getElem?_set_self hcn, Option.getD_some]

theorem getCell_setCell_ne {g : Grid} {r c r' c' : Int} (ch : Char)
    (hne : r.toNat ≠ r'.toNat ∨ c.toNat ≠ c'.toNat) :
    getCell (setCell g r c ch) r' c' = getCell g r' c' := by
  rw [getCell, getCell, setCell]
  simp only [List.getD_eq_getElem?_getD]
  rcases hne with hne | hne
  · rw [List.getElem?_set_ne hne]
  · rcases eq_or_ne r.toNat r'.toNat with heq | hner
    · rw [← heq]
      rcases Nat.lt_or_ge r.toNat g.length with hlt | hge
      · rw [List.getElem?_set_self hlt, Option.getD_some,
          List.getElem?_set_ne hne]
      · rw [List.set_eq_of_length_le hge]
    · rw [List.getElem?_set_ne hner]

/-! ### Candidate path lemmas -/

theorem posList_shape :
    ∀ (n : Nat) (r c dr dc : Int) (p : Int × Int),
      p ∈ posList n r c dr dc →
        ∃ i : Nat, i < n ∧ p.1 = r + i * dr ∧ p.2 = c + i * dc := by
  intro n
  induction n with
  | zero => intro r c dr dc p hp; simp [posList] at hp
  | succ n ih =>
    intro r c dr dc p hp
    rw [posList] at hp
    rcases List.mem_cons.mp hp with rfl | hp
    · exact ⟨0, Nat.succ_pos n, by simp, by simp⟩
    · obtain ⟨i, hi, h1, h2⟩ := ih _ _ _ _ _ hp
      refine ⟨i + 1, by omega, ?_, ?_⟩
      · rw [h1]; push_cast; ring
      · rw [h2]; push_cast; ring

theorem posList_tail_ne_head {dr dc : Int} (hd : ¬(dr = 0 ∧ dc = 0)) :
    ∀ (n : Nat) (r c : Int) (p : Int × Int),
      p ∈ posList n (r + dr) (c + dc) dr dc → p ≠ (r, c) := by
  intro n r c p hp heq
  obtain ⟨i, _, h1, h2⟩ := posList_shape _ _ _ _ _ _ hp
  subst heq
  have e1 : ((i : Int) + 1) * dr = 0 := by
    have hh := h1; simp only [Prod.fst] at hh; linear_combination -hh
  have e2 : ((i : Int) + 1) * dc = 0 := by
    have hh := h2; simp only [Prod.snd] at hh; linear_combination -hh
  have hi1 : ((i : Int) + 1) ≠ 0 := by positivity
  rcases Int.mul_eq_zero.mp e1 with h | h
  · exact hi1 h
  · rcases Int.mul_eq_zero.mp e2 with h2z | h2z
    · exact hi1 h2z
    · exact hd ⟨h, h2z⟩

theorem cellsInBounds_mem {size : Nat} :
    ∀ (n : Nat) (r c dr dc : Int),
      cellsInBounds size n r c dr dc = true →
      ∀ p ∈ posList n r c dr dc,
        0 ≤ p.1 ∧ p.1 < (size : Int) ∧ 0 ≤ p.2 ∧ p.2 < (size : Int) := by
  intro n
  induction n with
  | zero => intro r c dr dc _ p hp; simp [posList] at hp
  | succ n ih =>
    intro r c dr dc hb p hp
    rw [cellsInBounds, Bool.and_eq_true] at hb
    rw [posList] at hp
    rcases List.mem_cons.mp hp with rfl | hp
    · exact inBoundsB_iff.mp hb.1
    · exact ih _ _ _ _ hb.2 p hp

theorem checkFits_cons {g : Grid} {size : Nat} {ch : Char} {rest : List Char}
    {r c dr dc : Int} :
    checkFits g size (ch :: rest) r c dr dc = true ↔
      inBoundsB size r c = true ∧
      (getCell g r c = none ∨ getCell g r c = some ch) ∧
      checkFits g size rest (r + dr) (c + dc) dr dc = true := by
  rw [checkFits]
  cases hb : inBoundsB size r c
  · simp
  · by_cases hcell : getCell g r c = none ∨ getCell g r c = some ch
    · rw [if_pos hcell]; simp [hcell]
    · rw [if_neg hcell]; simp [hcell]

theorem checkFits_inBounds {g : Grid} {size : Nat} :
    ∀ (w : List Char) (r c dr dc : Int),
      checkFits g size w r c dr dc = true →
      cellsInBounds size w.length r c dr dc = true := by
  intro w
  induction w with
  | nil => intro r c dr dc _; rfl
  | cons ch rest ih =>
    intro r c dr dc hf
    obtain ⟨h1, _, h3⟩ := checkFits_cons.mp hf
    rw [List.length_cons, cellsInBounds, Bool.and_eq_true]
    exact ⟨h1, ih _ _ _ _ h3⟩

/-! ### Write-effect lemmas -/

theorem getCell_writeWord_not_visited :
    ∀ (w : List Char) (g : Grid) (r c dr dc r' c' : Int),
      (∀ p ∈ posList w.length r c dr dc,
        p.1.toNat ≠ r'.toNat ∨ p.2.toNat ≠ c'.toNat) →
      getCell (writeWord g w r c dr dc) r' c' = getCell g r' c' := by
  intro w
  induction w with
  | nil => intros; rfl
  | cons ch rest ih =>
    intro g r c dr dc r' c' hnv
    rw [writeWord, ih (setCell g r c ch) (r + dr) (c + dc) dr dc r' c'
      (fun p hp => hnv p (by
        rw [List.length_cons, posList]; exact List.mem_cons_of_mem _ hp))]
    exact getCell_setCell_ne ch (hnv (r, c) (by
      rw [List.length_cons, posList]; exact List.mem_cons_self _ _))

theorem checkFits_congr {size : Nat} :
    ∀ (w : List Char) (g₁ g₂ : Grid) (r c dr dc : Int),
      (∀ p ∈ posList w.length r c dr dc,
        getCell g₁ p.1 p.2 = getCell g₂ p.1 p.2) →
      checkFits g₁ size w r c dr dc = checkFits g₂ size w r c dr dc := by
  intro w
  induction w with
  | nil => intros; rfl
  | cons ch rest ih =>
    intro g₁ g₂ r c dr dc hag
    have hhead := hag (r, c) (by
      rw [List.length_cons, posList]; exact List.mem_cons_self _ _)
    simp only at hhead
    rw [checkFits, checkFits, hhead,
      ih g₁ g₂ (r + dr) (c + dc) dr dc (fun p hp => hag p (by
        rw [List.length_cons, posList]; exact List.mem_cons_of_mem _ hp))]

theorem readCells_map_some_mono {g g' : Grid}
    (hmono : ∀ r c x, getCell g r c = some x → getCell g' r c = some x) :
    ∀ (w : List Char) (r c dr dc : Int),
      readCells g w.length r c dr dc = w.map some →
      readCells g' w.length r c dr dc = w.map some := by
  intro w
  induction w with
  | nil => intros; rfl
  | cons ch rest ih =>
    intro r c dr dc hr
    rw [List.length_cons, readCells, List.map_cons, List.cons.injEq] at hr ⊢
    exact ⟨hmono _ _ _ hr.1, ih _ _ _ _ hr.2⟩

theorem posList_tail_toNat_ne {size : Nat} {dr dc : Int}
    (hd : ¬(dr = 0 ∧ dc = 0)) {n : Nat} {r c : Int}
    (hb : cellsInBounds size (n + 1) r c dr dc = true) :
    ∀ p ∈ posList n (r + dr) (c + dc) dr dc,
      p.1.toNat ≠ r.toNat ∨ p.2.toNat ≠ c.toNat := by
  intro p hp
  have hne := posList_tail_ne_head hd n r c p hp
  rw [cellsInBounds, Bool.and_eq_true] at hb
  have hh := inBoundsB_iff.mp hb.1
  have hpb := cellsInBounds_mem n _ _ _ _ hb.2 p hp
  obtain ⟨p1, p2⟩ := p
  simp only at hne hpb ⊢
  by_contra hcon
  push_neg at hcon
  refine hne ?_
  have e1 : p1 = r := by omega
  have e2 : p2 = c := by omega
  rw [e1, e2]

theorem checkFits_setCell_tail {size : Nat} {dr dc : Int}
    (hd : ¬(dr = 0 ∧ dc = 0)) {g : Grid} {ch : Char} {rest : List Char}
    {r c : Int} (hf : checkFits g size (ch :: rest) r c dr dc = true) :
    checkFits (setCell g r c ch) size rest (r + dr) (c + dc) dr dc = true := by
  obtain ⟨_, _, h3⟩ := checkFits_cons.mp hf
  have hb : cellsInBounds size (rest.length + 1) r c dr dc = true := by
    have := checkFits_inBounds (ch :: rest) r c dr dc hf
    rwa [List.length_cons] at this
  have hagree : ∀ p ∈ posList rest.length (r + dr) (c + dc) dr dc,
      getCell (setCell g r c ch) p.1 p.2 = getCell g p.1 p.2 := by
    intro p hp
    exact getCell_setCell_ne ch
      ((posList_tail_toNat_ne hd hb p hp).imp Ne.symm Ne.symm)
  rw [checkFits_congr rest _ g _ _ _ _ hagree]
  exact h3

theorem readCells_writeWord {size : Nat} {dr dc : Int}
    (hd : ¬(dr = 0 ∧ dc = 0)) :
    ∀ (w : List Char) (g : Grid) (r c : Int), gridDims g size →
      checkFits g size w r c dr dc = true →
      readCells (writeWord g w r c dr dc) w.length r c dr dc = w.map some := by
  intro w
  induction w with
  | nil => intros; rfl
  | cons ch rest ih =>
    intro g r c hdims hf
    obtain ⟨h1, _, _⟩ := checkFits_cons.mp hf
    have hb := inBoundsB_iff.mp h1
    have hbs : cellsInBounds size (rest.length + 1) r c dr dc = true := by
      have := checkFits_inBounds (ch :: rest) r c dr dc hf
      rwa [List.length_cons] at this
    have hf2 := checkFits_setCell_tail hd hf
    rw [List.length_cons, writeWord, readCells, List.map_cons,
      List.cons.injEq]
    refine ⟨?_, ih (setCell g r c ch) (r + dr) (c + dc)
      (gridDims_setCell hdims r c ch) hf2⟩
    rw [getCell_writeWord_not_visited rest _ _ _ _ _ _ _
      (posList_tail_toNat_ne hd hbs)]
    exact getCell_setCell_self hdims hb.1 hb.2.1 hb.2.2.1 hb.2.2.2 ch

theorem getCell_writeWord_some {size : Nat} {dr dc : Int}
    (hd : ¬(dr = 0 ∧ dc = 0)) :
    ∀ (w : List Char) (g : Grid) (r c : Int), gridDims g size →
      checkFits g size w r c dr dc = true →
      ∀ r' c' x, getCell g r' c' = some x →
        getCell (writeWord g w r c dr dc) r' c' = some x := by
  intro w
  induction w with
  | nil => intro g r c _ _ r' c' x hx; exact hx
  | cons ch rest ih =>
    intro g r c hdims hf r' c' x hx
    obtain ⟨h1, h2, _⟩ := checkFits_cons.mp hf
    have hb := inBoundsB_iff.mp h1
    have hf2 := checkFits_setCell_tail hd hf
    rw [writeWord]
    apply ih _ _ _ (gridDims_setCell hdims r c ch) hf2
    by_cases hsame : r.toNat = r'.toNat ∧ c.toNat = c'.toNat
    · rw [getCell_congr_toNat hsame.1 hsame.2, hx] at h2
      rcases h2 with h2 | h2
      · exact absurd h2 (by simp)
      · injection h2 with hxc
        rw [← getCell_congr_toNat hsame.1 hsame.2,
          getCell_setCell_self hdims hb.1 hb.2.1 hb.2.2.1 hb.2.2.2 ch, hxc]
    · rw [getCell_setCell_ne ch (not_and_or.mp hsame)]
      exact hx

/-! ### Candidate scan and main-loop invariants -/

theorem tryCandidates_some {g : Grid} {size : Nat} {w : List Char} :
    ∀ (cands : List Cand) {g' : Grid} {cand : Cand},
      tryCandidates g size w cands = some (g', cand) →
      cand ∈ cands ∧
      checkFits g size w cand.r cand.c cand.dr cand.dc = true ∧
      g' = writeWord g w cand.r cand.c cand.dr cand.dc := by
  intro cands
  induction cands with
  | nil => intro g' cand h; cases h
  | cons x rest ih =>
    intro g' cand h
    rw [tryCandidates] at h
    by_cases hf : checkFits g size w x.r x.c x.dr x.dc = true
    · rw [if_pos hf] at h
      simp only [Option.some.injEq, Prod.mk.injEq] at h
      obtain ⟨h1, rfl⟩ := h
      exact ⟨List.mem_cons_self _ _, hf, h1.symm⟩
    · rw [if_neg hf] at h
      obtain ⟨h1, h2, h3⟩ := ih h
      exact ⟨List.mem_cons_of_mem _ h1, h2, h3⟩

theorem mem_buildCandidates {size : Nat} {directions : List (Int × Int)}
    {cand : Cand} (h : cand ∈ buildCandidates size directions) :
    (cand.dr, cand.dc) ∈ directions ∧ 0 ≤ cand.r ∧ cand.r < (size : Int) ∧
      0 ≤ cand.c ∧ cand.c < (size : Int) := by
  rw [buildCandidates] at h
  simp only [List.mem_flatMap, List.mem_map, List.mem_range] at h
  obtain ⟨r, hr, c, hc, d, hd, rfl⟩ := h
  refine ⟨by simpa using hd, ?_, ?_, ?_, ?_⟩
  · show (0 : Int) ≤ (r : Int); positivity
  · show (r : Int) < (size : Int); exact_mod_cast hr
  · show (0 : Int) ≤ (c : Int); positivity
  · show (c : Int) < (size : Int); exact_mod_cast hc

theorem placeLoop_some_inv {σ : Type} {shuffle : List Cand → σ → List Cand × σ}
    {size : Nat} {directions : List (Int × Int)}
    (hsh : ∀ (l : List Cand) (s : σ), ∀ x ∈ (shuffle l s).1, x ∈ l)
    (hdir : ∀ d ∈ directions, ¬(d.1 = 0 ∧ d.2 = 0)) :
    ∀ (ws : List (List Char)) (g : Grid) (placed : List Placement)
      (attempts : Nat) (s : σ) (g' : Grid) (placed' : List Placement)
      (s' : σ),
      placeLoop shuffle size directions ws g placed attempts s =
        (some (g', placed'), s') →
      gridDims g size →
      (∀ p ∈ placed, goodPlacement size directions g p) →
      gridDims g' size ∧
      placed'.map Placement.word =
        placed.map Placement.word ++ ws.map upperWord ∧
      (∀ p ∈ placed', goodPlacement size directions g' p) := by
  intro ws
  induction ws with
  | nil =>
    intro g placed attempts s g' placed' s' h hdims hgood
    simp only [placeLoop, Prod.mk.injEq, Option.some.injEq] at h
    obtain ⟨⟨rfl, rfl⟩, rfl⟩ := h
    exact ⟨hdims, by simp, hgood⟩
  | cons w rest ih =>
    intro g placed attempts s g' placed' s' h hdims hgood
    rcases htc : tryCandidates g size (upperWord w)
        (shuffle (buildCandidates size directions) s).1 with _ | ⟨g2, cand⟩
    · simp [placeLoop, htc] at h
    · simp only [placeLoop, htc] at h
      obtain ⟨hmem, hfits, hgw⟩ := tryCandidates_some _ htc
      have hmem2 := mem_buildCandidates (hsh _ _ _ hmem)
      have hd : ¬(cand.dr = 0 ∧ cand.dc = 0) := hdir _ hmem2.1
      subst hgw
      have hdims2 : gridDims (writeWord g (upperWord w) cand.r cand.c
          cand.dr cand.dc) size := gridDims_writeWord hdims _ _ _ _ _
      have hgood2 : ∀ p ∈ placed ++ [⟨upperWord w, cand⟩],
          goodPlacement size directions
            (writeWord g (upperWord w) cand.r cand.c cand.dr cand.dc) p := by
        intro p hp
        rcases List.mem_append.mp hp with hp | hp
        · obtain ⟨hrb, hbnd, hdm⟩ := hgood p hp
          exact ⟨readCells_map_some_mono
            (getCell_writeWord_some hd _ g _ _ hdims hfits) _ _ _ _ _ hrb,
            hbnd, hdm⟩
        · rw [List.mem_singleton.mp hp]
          exact ⟨readCells_writeWord hd _ g _ _ hdims hfits,
            checkFits_inBounds _ _ _ _ _ hfits, hmem2.1⟩
      obtain ⟨hdimsf, hwords, hgoodf⟩ := ih _ _ _ _ _ _ _ h hdims2 hgood2
      refine ⟨hdimsf, ?_, hgoodf⟩
      rw [hwords, List.map_append, List.map_cons]
      simp

/-! ### Character lemmas -/

theorem mem_ALPHABET_of_toNat {c : Char} (h1 : 65 ≤ c.toNat)
    (h2 : c.toNat ≤ 90) : c ∈ ALPHABET := by
  have key : ∀ n, 65 ≤ n → n ≤ 90 → Char.ofNat n ∈ ALPHABET := by
    intro n hn1 hn2
    interval_cases n <;> decide
  have := key c.toNat h1 h2
  rwa [Char.ofNat_toNat] at this

theorem toNat_ofNat_upper {n : Nat} (h1 : 65 ≤ n) (h2 : n ≤ 90) :
    (Char.ofNat n).toNat = n := by
  interval_cases n <;> rfl

theorem toUpper_eq_of_lower {c : Char} (h : 97 ≤ c.toNat ∧ c.toNat ≤ 122) :
    c.toUpper = Char.ofNat (c.toNat - 32) := by
  simp only [Char.toUpper]
  rw [if_pos h]

theorem toUpper_eq_of_not_lower {c : Char}
    (h : ¬(97 ≤ c.toNat ∧ c.toNat ≤ 122)) : c.toUpper = c := by
  simp only [Char.toUpper]
  rw [if_neg h]

theorem toUpper_mem_ALPHABET {c : Char} (h : isAsciiAlpha c = true) :
    Char.toUpper c ∈ ALPHABET := by
  rw [isAsciiAlpha, Bool.or_eq_true, Bool.and_eq_true, Bool.and_eq_true] at h
  simp only [decide_eq_true_eq] at h
  rcases h with h | h
  · rw [toUpper_eq_of_not_lower (by omega)]
    exact mem_ALPHABET_of_toNat h.1 h.2
  · rw [toUpper_eq_of_lower h]
    exact mem_ALPHABET_of_toNat
      (by rw [toNat_ofNat_upper (by omega) (by omega)]; omega)
      (by rw [toNat_ofNat_upper (by omega) (by omega)]; omega)

theorem toUpper_toUpper (c : Char) : c.toUpper.toUpper = c.toUpper := by
  by_cases hc : 97 ≤ c.toNat ∧ c.toNat ≤ 122
  · rw [toUpper_eq_of_lower hc]
    refine toUpper_eq_of_not_lower ?_
    rw [toNat_ofNat_upper (by omega) (by omega)]
    omega
  · rw [toUpper_eq_of_not_lower hc, toUpper_eq_of_not_lower hc]

theorem upperWord_idem (w : List Char) :
    upperWord (upperWord w) = upperWord w := by
  rw [upperWord, upperWord, List.map_map]
  exact List.map_congr_left fun c _ => toUpper_toUpper c

theorem ALPHABET_range : ∀ c ∈ ALPHABET, 65 ≤ c.toNat ∧ c.toNat ≤ 90 := by
  decide

/-! ### Letter-content invariant -/

theorem lettersOk_replicate (n m : Nat) :
    lettersOk (List.replicate n (List.replicate m none)) := by
  intro row hrow cell hcell x hx
  rw [List.eq_of_mem_replicate hrow] at hcell
  rw [List.eq_of_mem_replicate hcell] at hx
  cases hx

theorem lettersOk_setCell {g : Grid} (hg : lettersOk g) {ch : Char}
    (hch : ch ∈ ALPHABET) (r c : Int) : lettersOk (setCell g r c ch) := by
  intro row hrow cell hcell x hx
  rcases List.mem_or_eq_of_mem_set hrow with hm | rfl
  · exact hg row hm cell hcell x hx
  · rcases List.mem_or_eq_of_mem_set hcell with hm | rfl
    · rcases Nat.lt_or_ge r.toNat g.length with hlt | hge
      · have hrm : g.getD r.toNat [] ∈ g := by
          rw [List.getD_eq_getElem?_getD, List.getElem?_eq_getElem hlt,
            Option.getD_some]
          exact List.getElem_mem hlt
        exact hg _ hrm cell hm x hx
      · rw [List.getD_eq_getElem?_getD, List.getElem?_eq_none hge,
          Option.getD_none] at hm
        cases hm
    · injection hx with hx
      rw [hx] at hch
      exact hch

theorem lettersOk_writeWord :
    ∀ (w : List Char) (g : Grid) (r c dr dc : Int), lettersOk g →
      (∀ ch ∈ w, ch ∈ ALPHABET) →
      lettersOk (writeWord g w r c dr dc) := by
  intro w
  induction w with
  | nil => intro g r c dr dc hg _; exact hg
  | cons ch rest ih =>
    intro g r c dr dc hg hw
    rw [writeWord]
    exact ih _ _ _ _ _
      (lettersOk_setCell hg (hw ch (List.mem_cons_self _ _)) r c)
      (fun x hx => hw x (List.mem_cons_of_mem _ hx))

theorem placeLoop_lettersOk {σ : Type}
    {shuffle : List Cand → σ → List Cand × σ} {size : Nat}
    {directions : List (Int × Int)} :
    ∀ (ws : List (List Char)) (g : Grid) (placed : List Placement)
      (attempts : Nat) (s : σ) (g' : Grid) (placed' : List Placement)
      (s' : σ),
      placeLoop shuffle size directions ws g placed attempts s =
        (some (g', placed'), s') →
      lettersOk g →
      (∀ w ∈ ws, ∀ ch ∈ w, Char.toUpper ch ∈ ALPHABET) →
      lettersOk g' := by
  intro ws
  induction ws with
  | nil =>
    intro g placed attempts s g' placed' s' h hg _
    simp only [placeLoop, Prod.mk.injEq, Option.some.injEq] at h
    obtain ⟨⟨rfl, _⟩, _⟩ := h
    exact hg
  | cons w rest ih =>
    intro g placed attempts s g' placed' s' h hg hok
    rcases htc : tryCandidates g size (upperWord w)
        (shuffle (buildCandidates size directions) s).1 with _ | ⟨g2, cand⟩
    · simp [placeLoop, htc] at h
    · simp only [placeLoop, htc] at h
      obtain ⟨_, _, hgw⟩ := tryCandidates_some _ htc
      subst hgw
      refine ih _ _ _ _ _ _ _ h ?_ fun v hv => hok v (List.mem_cons_of_mem _ hv)
      refine lettersOk_writeWord _ g _ _ _ _ hg fun ch hch => ?_
      rw [upperWord] at hch
      obtain ⟨c0, hc0, rfl⟩ := List.mem_map.mp hch
      exact hok w (List.mem_cons_self _ _) c0 hc0

/-! ### Fill-phase lemmas -/

section FillLemmas

variable {σ : Type} {choice : σ → Char × σ}

theorem fillRow_cells (hch : ∀ s, (choice s).1 ∈ ALPHABET) :
    ∀ (row : List (Option Char)) (s : σ),
      ∀ cell ∈ (fillRow choice row s).1,
        ∃ ch, cell = some ch ∧ (ch ∈ ALPHABET ∨ some ch ∈ row) := by
  intro row
  induction row with
  | nil => intro s cell hcell; simp [fillRow] at hcell
  | cons c0 rest ih =>
    intro s cell hcell
    cases c0 with
    | none =>
      simp only [fillRow] at hcell
      rcases List.mem_cons.mp hcell with rfl | hcell
      · exact ⟨(choice s).1, rfl, Or.inl (hch s)⟩
      · obtain ⟨ch, he, hor⟩ := ih _ _ hcell
        exact ⟨ch, he, hor.imp id (List.mem_cons_of_mem _)⟩
    | some c1 =>
      simp only [fillRow] at hcell
      rcases List.mem_cons.mp hcell with rfl | hcell
      · exact ⟨c1, rfl, Or.inr (List.mem_cons_self _ _)⟩
      · obtain ⟨ch, he, hor⟩ := ih _ _ hcell
        exact ⟨ch, he, hor.imp id (List.mem_cons_of_mem _)⟩

theorem fillGrid_cells (hch : ∀ s, (choice s).1 ∈ ALPHABET) :
    ∀ (g : Grid) (s : σ),
      ∀ row ∈ (fillGrid choice g s).1, ∀ cell ∈ row,
        ∃ ch, cell = some ch ∧
          (ch ∈ ALPHABET ∨ ∃ row₀ ∈ g, some ch ∈ row₀) := by
  intro g
  induction g with
  | nil => intro s row hrow; simp [fillGrid] at hrow
  | cons row0 rows ih =>
    intro s row hrow cell hcell
    simp only [fillGrid] at hrow
    rcases List.mem_cons.mp hrow with rfl | hrow
    · obtain ⟨ch, he, hor⟩ := fillRow_cells hch row0 s cell hcell
      exact ⟨ch, he, hor.imp id fun hm =>
        ⟨row0, List.mem_cons_self _ _, hm⟩⟩
    · obtain ⟨ch, he, hor⟩ := ih _ _ hrow cell hcell
      exact ⟨ch, he, hor.imp id fun ⟨r0, hr0, hm⟩ =>
        ⟨r0, List.mem_cons_of_mem _ hr0, hm⟩⟩

theorem fillRow_getD_some :
    ∀ (row : List (Option Char)) (s : σ) (i : Nat) (x : Char),
      row.getD i none = some x →
      (fillRow choice row s).1.getD i none = some x := by
  intro row
  induction row with
  | nil => intro s i x h; simp [List.getD_eq_getElem?_getD] at h
  | cons c0 rest ih =>
    intro s i x h
    cases c0 with
    | none =>
      cases i with
      | zero => simp [List.getD_cons_zero] at h
      | succ i =>
        rw [List.getD_cons_succ] at h
        simp only [fillRow]
        rw [List.getD_cons_succ]
        exact ih _ _ _ h
    | some c1 =>
      cases i with
      | zero =>
        rw [List.getD_cons_zero] at h
        simp only [fillRow]
        rw [List.getD_cons_zero]
        exact h
      | succ i =>
        rw [List.getD_cons_succ] at h
        simp only [fillRow]
        rw [List.getD_cons_succ]
        exact ih _ _ _ h

theorem fillGrid_getD_some :
    ∀ (g : Grid) (s : σ) (ri ci : Nat) (x : Char),
      (g.getD ri []).getD ci none = some x →
      ((fillGrid choice g s).1.getD ri []).getD ci none = some x := by
  intro g
  induction g with
  | nil => intro s ri ci x h; simp [List.getD_eq_getElem?_getD] at h
  | cons row0 rows ih =>
    intro s ri ci x h
    cases ri with
    | zero =>
      rw [List.getD_cons_zero] at h
      simp only [fillGrid]
      rw [List.getD_cons_zero]
      exact fillRow_getD_some _ _ _ _ h
    | succ ri =>
      rw [List.getD_cons_succ] at h
      simp only [fillGrid]
      rw [List.getD_cons_succ]
      exact ih _ _ _ _ h

theorem getCell_fillGrid_some {g : Grid} {s : σ} {r c : Int} {x : Char}
    (h : getCell g r c = some x) :
    getCell (fillGrid choice g s).1 r c = some x := by
  rw [getCell] at h ⊢
  exact fillGrid_getD_some g s r.toNat c.toNat x h

end FillLemmas

/-! ### Sorting lemmas -/

theorem sortWords_perm (words : List (List Char)) :
    (sortWords words).Perm words :=
  List.mergeSort_perm _ _

theorem sortWords_sorted (words : List (List Char)) :
    (sortWords words).Pairwise (fun a b => b.length ≤ a.length) := by
  have h := @List.sorted_mergeSort (List Char)
    (fun a b => decide (b.length ≤ a.length))
    (fun a b c h1 h2 => by
      simp only [decide_eq_true_eq] at h1 h2 ⊢; omega)
    (fun a b => by
      simp only [Bool.or_eq_true, decide_eq_true_eq]; omega) words
  exact h.imp fun hab => by simpa using hab

theorem sortWords_filter_length (words : List (List Char)) (n : Nat) :
    (sortWords words).filter (fun w => decide (w.length = n)) =
      words.filter (fun w => decide (w.length = n)) := by
  have hsub : List.Sublist (words.filter (fun w => decide (w.length = n)))
      (sortWords words) := by
    refine List.sublist_mergeSort ?_ ?_ ?_ (List.filter_sublist words)
    · intro a b c h1 h2
      simp only [decide_eq_true_eq] at h1 h2 ⊢
      omega
    · intro a b
      simp only [Bool.or_eq_true, decide_eq_true_eq]
      omega
    · refine List.pairwise_of_forall_mem_list fun a ha b hb => ?_
      have ha2 := List.of_mem_filter ha
      have hb2 := List.of_mem_filter hb
      simp only [decide_eq_true_eq] at ha2 hb2 ⊢
      omega
  have hsub2 := List.Sublist.filter (fun w => decide (w.length = n)) hsub
  rw [List.filter_filter] at hsub2
  have hfix : words.filter
        (fun a => decide (a.length = n) && decide (a.length = n)) =
      words.filter (fun w => decide (w.length = n)) :=
    List.filter_congr fun a _ => Bool.and_self _
  rw [hfix] at hsub2
  have hlen : (words.filter (fun w => decide (w.length = n))).length =
      ((sortWords words).filter (fun w => decide (w.length = n))).length :=
    ((sortWords_perm words).filter _).length_eq.symm
  exact (List.Sublist.eq_of_length hsub2 hlen).symm

theorem sortWords_head_max {words : List (List Char)} {w0 : List Char}
    {rest : List (List Char)} (h : sortWords words = w0 :: rest) :
    ∀ w ∈ words, w.length ≤ w0.length := by
  intro w hw
  have hmem : w ∈ sortWords words := by
    rw [sortWords, List.mem_mergeSort]
    exact hw
  rw [h] at hmem
  rcases List.mem_cons.mp hmem with rfl | hmem
  · exact Nat.le_refl _
  · have hs := sortWords_sorted words
    rw [h] at hs
    exact List.rel_of_pairwise_cons hs hmem

theorem sortWords_map_upperWord (words : List (List Char)) :
    sortWords (words.map upperWord) = (sortWords words).map upperWord := by
  rw [sortWords, sortWords]
  exact (List.map_mergeSort fun a _ b _ => by
    simp only [upperWord, List.length_map]).symm

/-! ### Pointwise readback -/

theorem readCells_getD {g : Grid} :
    ∀ (w : List Char) (r c dr dc : Int),
      readCells g w.length r c dr dc = w.map some →
      ∀ i : Nat, i < w.length →
        getCell g (r + i * dr) (c + i * dc) = some (w.getD i 'A') := by
  intro w
  induction w with
  | nil => intro r c dr dc _ i hi; simp at hi
  | cons ch rest ih =>
    intro r c dr dc h i hi
    rw [List.length_cons, readCells, List.map_cons, List.cons.injEq] at h
    cases i with
    | zero => simpa using h.1
    | succ i =>
      have e1 : r + ((i : Nat) + 1 : Nat) * dr = (r + dr) + (i : Int) * dr := by
        push_cast; ring
      have e2 : c + ((i : Nat) + 1 : Nat) * dc = (c + dc) + (i : Int) * dc := by
        push_cast; ring
      rw [e1, e2, List.getD_cons_succ]
      exact ih _ _ _ _ h.2 i (by rw [List.length_cons] at hi; omega)

/-! ### Failure-path lemmas -/

theorem tryCandidates_none_of_fail {g : Grid} {size : Nat} {w : List Char} :
    ∀ (cands : List Cand),
      (∀ cand ∈ cands,
        checkFits g size w cand.r cand.c cand.dr cand.dc = false) →
      tryCandidates g size w cands = none := by
  intro cands
  induction cands with
  | nil => intro _; rfl
  | cons x rest ih =>
    intro hfail
    have hx := hfail x (List.mem_cons_self _ _)
    rw [tryCandidates, if_neg (by rw [hx]; simp)]
    exact ih fun cand hc => hfail cand (List.mem_cons_of_mem _ hc)

theorem placeLoop_fail_first {σ : Type}
    {shuffle : List Cand → σ → List Cand × σ} {size : Nat}
    {directions : List (Int × Int)} {w : List Char}
    {rest : List (List Char)} {g : Grid} {placed : List Placement}
    {attempts : Nat} {s : σ}
    (hfail : ∀ cand ∈ (shuffle (buildCandidates size directions) s).1,
      checkFits g size (upperWord w) cand.r cand.c cand.dr cand.dc = false) :
    placeLoop shuffle size directions (w :: rest) g placed attempts s =
      (none, (shuffle (buildCandidates size directions) s).2) := by
  have htc := tryCandidates_none_of_fail _ hfail
  simp only [placeLoop, htc, ite_self]

theorem placeLoop_attempts_indep {σ : Type}
    {shuffle : List Cand → σ → List Cand × σ} {size : Nat}
    {directions : List (Int × Int)} :
    ∀ (ws : List (List Char)) (g : Grid) (placed : List Placement)
      (a1 a2 : Nat) (s : σ),
      placeLoop shuffle size directions ws g placed a1 s =
        placeLoop shuffle size directions ws g placed a2 s := by
  intro ws
  induction ws with
  | nil => intros; rfl
  | cons w rest ih =>
    intro g placed a1 a2 s
    rcases htc : tryCandidates g size (upperWord w)
        (shuffle (buildCandidates size directions) s).1 with _ | ⟨g2, cand⟩ <;>
      simp only [placeLoop, htc, ite_self]
    exact ih _ _ _ _ _

theorem placeLoopHitsCap_false {σ : Type}
    (shuffle : List Cand → σ → List Cand × σ) (size : Nat)
    (directions : List (Int × Int)) :
    ∀ (ws : List (List Char)) (g : Grid) (attempts : Nat) (s : σ),
      attempts < max_attempts →
      placeLoopHitsCap shuffle size directions ws g attempts s = false := by
  intro ws
  induction ws with
  | nil => intros; rfl
  | cons w rest ih =>
    intro g attempts s ha
    rcases htc : tryCandidates g size (upperWord w)
        (shuffle (buildCandidates size directions) s).1 with _ | ⟨g2, cand⟩ <;>
      simp only [placeLoopHitsCap, htc]
    · simp only [decide_eq_false_iff_not]
      omega
    · exact ih _ _ _ ha

theorem getCellSafe_eq {g : Grid} {size : Nat} (hdims : gridDims g size)
    {r c : Int} (hb : inBoundsB size r c = true) :
    getCellSafe g r c = some (getCell g r c) := by
  obtain ⟨h1, h2, h3, h4⟩ := inBoundsB_iff.mp hb
  obtain ⟨hlen, hrow⟩ := hdims
  have hrn : r.toNat < g.length := by omega
  have hcn : c.toNat < (g[r.toNat]).length := by
    rw [hrow _ (List.getElem_mem hrn)]
    omega
  rw [getCellSafe, if_pos ⟨h1, h3⟩, getCell]
  simp only [List.getD_eq_getElem?_getD, List.getElem?_eq_getElem hrn,
    Option.getD_some, List.getElem?_eq_getElem hcn]

theorem checkFitsSafe_eq {g : Grid} {size : Nat} (hdims : gridDims g size) :
    ∀ (w : List Char) (r c dr dc : Int),
      checkFitsSafe g size w r c dr dc =
        some (checkFits g size w r c dr dc) := by
  intro w
  induction w with
  | nil => intros; rfl
  | cons ch rest ih =>
    intro r c dr dc
    rw [checkFitsSafe, checkFits]
    cases hb : inBoundsB size r c
    · simp
    · rw [if_pos (rfl : true = true), if_pos (rfl : true = true)]
      simp only [getCellSafe_eq hdims hb]
      by_cases hcell : getCell g r c = none ∨ getCell g r c = some ch
      · rw [if_pos hcell, if_pos hcell]
        exact ih _ _ _ _
      · rw [if_neg hcell, if_neg hcell]

theorem writeWordSafe_eq {size : Nat} :
    ∀ (w : List Char) (g : Grid) (r c dr dc : Int),
      cellsInBounds size w.length r c dr dc = true →
      writeWordSafe size g w r c dr dc =
        some (writeWord g w r c dr dc) := by
  intro w
  induction w with
  | nil => intros; rfl
  | cons ch rest ih =>
    intro g r c dr dc hb
    rw [List.length_cons, cellsInBounds, Bool.and_eq_true] at hb
    rw [writeWordSafe, writeWord, if_pos hb.1]
    exact ih _ _ _ _ _ hb.2

/-! ### Bounds in closed form -/

theorem cellsInBounds_iff {size : Nat} :
    ∀ (n : Nat) (r c dr dc : Int),
      cellsInBounds size n r c dr dc = true ↔
        ∀ i : Nat, i < n →
          0 ≤ r + i * dr ∧ r + i * dr < (size : Int) ∧
          0 ≤ c + i * dc ∧ c + i * dc < (size : Int) := by
  intro n
  induction n with
  | zero => intro r c dr dc; simp [cellsInBounds]
  | succ n ih =>
    intro r c dr dc
    rw [cellsInBounds, Bool.and_eq_true, inBoundsB_iff, ih]
    constructor
    · rintro ⟨hh, ht⟩ i hi
      cases i with
      | zero => simpa using hh
      | succ i =>
        have e1 : r + ((i : Nat) + 1 : Nat) * dr = (r + dr) + (i : Int) * dr := by
          push_cast; ring
        have e2 : c + ((i : Nat) + 1 : Nat) * dc = (c + dc) + (i : Int) * dc := by
          push_cast; ring
        rw [e1, e2]
        exact ht i (by omega)
    · intro hall
      refine ⟨by simpa using hall 0 (by omega), fun i hi => ?_⟩
      have e1 : (r + dr) + (i : Int) * dr = r + ((i : Nat) + 1 : Nat) * dr := by
        push_cast; ring
      have e2 : (c + dc) + (i : Int) * dc = c + ((i : Nat) + 1 : Nat) * dc := by
        push_cast; ring
      rw [e1, e2]
      exact hall (i + 1) (by omega)

/-! ### Lighter loop lemmas -/

theorem placeLoop_words {σ : Type}
    {shuffle : List Cand → σ → List Cand × σ} {size : Nat}
    {directions : List (Int × Int)} :
    ∀ (ws : List (List Char)) (g : Grid) (placed : List Placement)
      (attempts : Nat) (s : σ) (g' : Grid) (placed' : List Placement)
      (s' : σ),
      placeLoop shuffle size directions ws g placed attempts s =
        (some (g', placed'), s') →
      placed'.map Placement.word =
        placed.map Placement.word ++ ws.map upperWord := by
  intro ws
  induction ws with
  | nil =>
    intro g placed attempts s g' placed' s' h
    simp only [placeLoop, Prod.mk.injEq, Option.some.injEq] at h
    obtain ⟨⟨_, rfl⟩, _⟩ := h
    simp
  | cons w rest ih =>
    intro g placed attempts s g' placed' s' h
    rcases htc : tryCandidates g size (upperWord w)
        (shuffle (buildCandidates size directions) s).1 with _ | ⟨g2, cand⟩
    · simp [placeLoop, htc] at h
    · simp only [placeLoop, htc] at h
      rw [ih _ _ _ _ _ _ _ h, List.map_append, List.map_cons]
      simp

theorem placeLoop_map_upperWord {σ : Type}
    {shuffle : List Cand → σ → List Cand × σ} {size : Nat}
    {directions : List (Int × Int)} :
    ∀ (ws : List (List Char)) (g : Grid) (placed : List Placement)
      (attempts : Nat) (s : σ),
      placeLoop shuffle size directions (ws.map upperWord) g placed
        attempts s =
      placeLoop shuffle size directions ws g placed attempts s := by
  intro ws
  induction ws with
  | nil => intros; rfl
  | cons w rest ih =>
    intro g placed attempts s
    rw [List.map_cons]
    rcases htc : tryCandidates g size (upperWord w)
        (shuffle (buildCandidates size directions) s).1 with _ | ⟨g2, cand⟩ <;>
      simp only [placeLoop, upperWord_idem, htc, ite_self]
    exact ih _ _ _ _

/-! ### Top-level success bundles -/

theorem core_success_words {σ : Type}
    {shuffle : List Cand → σ → List Cand × σ} {choice : σ → Char × σ}
    {settings : DifficultySettings} {words : List (List Char)}
    {grid_size : Option Nat} {s0 : σ} {g : Grid} {placed : List Placement}
    {s1 : σ}
    (h : place_words_core shuffle choice settings words grid_size s0 =
      (some (g, placed), s1)) :
    placed.map Placement.word = (sortWords words).map upperWord := by
  rcases hpl : placeLoop shuffle (grid_size.getD settings.grid_default)
      settings.directions (sortWords words)
      (List.replicate (grid_size.getD settings.grid_default)
        (List.replicate (grid_size.getD settings.grid_default) none)) [] 0 s0
    with ⟨o, sPre⟩
  cases o with
  | none =>
    simp only [place_words_core, hpl] at h
    simp at h
  | some gp =>
    obtain ⟨gPre, placedPre⟩ := gp
    simp only [place_words_core, hpl, Prod.mk.injEq, Option.some.injEq] at h
    obtain ⟨⟨_, rfl⟩, _⟩ := h
    simpa using placeLoop_words _ _ _ _ _ _ _ _ hpl

theorem core_success_good {σ : Type}
    {shuffle : List Cand → σ → List Cand × σ} {choice : σ → Char × σ}
    {settings : DifficultySettings} {words : List (List Char)}
    {grid_size : Option Nat} {s0 : σ} {g : Grid} {placed : List Placement}
    {s1 : σ}
    (hsh : ∀ (l : List Cand) (s : σ), ∀ x ∈ (shuffle l s).1, x ∈ l)
    (hdir : ∀ d ∈ settings.directions, ¬(d.1 = 0 ∧ d.2 = 0))
    (h : place_words_core shuffle choice settings words grid_size s0 =
      (some (g, placed), s1)) :
    ∀ p ∈ placed, goodPlacement (grid_size.getD settings.grid_default)
      settings.directions g p := by
  rcases hpl : placeLoop shuffle (grid_size.getD settings.grid_default)
      settings.directions (sortWords words)
      (List.replicate (grid_size.getD settings.grid_default)
        (List.replicate (grid_size.getD settings.grid_default) none)) [] 0 s0
    with ⟨o, sPre⟩
  cases o with
  | none =>
    simp only [place_words_core, hpl] at h
    simp at h
  | some gp =>
    obtain ⟨gPre, placedPre⟩ := gp
    simp only [place_words_core, hpl, Prod.mk.injEq, Option.some.injEq] at h
    obtain ⟨⟨rfl, rfl⟩, _⟩ := h
    obtain ⟨_, _, hgood⟩ := placeLoop_some_inv hsh hdir _ _ _ _ _ _ _ _ hpl
      (gridDims_replicate _) (by intro p hp; cases hp)
    intro p hp
    obtain ⟨hrb, hbnd, hdm⟩ := hgood p hp
    exact ⟨readCells_map_some_mono
      (fun r c x hx => getCell_fillGrid_some hx) _ _ _ _ _ hrb, hbnd, hdm⟩

theorem core_success_cells {σ : Type}
    {shuffle : List Cand → σ → List Cand × σ} {choice : σ → Char × σ}
    {settings : DifficultySettings} {words : List (List Char)}
    {grid_size : Option Nat} {s0 : σ} {g : Grid} {placed : List Placement}
    {s1 : σ}
    (hch : ∀ s : σ, (choice s).1 ∈ ALPHABET)
    (halpha : ∀ w ∈ words, ∀ ch ∈ w, isAsciiAlpha ch = true)
    (h : place_words_core shuffle choice settings words grid_size s0 =
      (some (g, placed), s1)) :
    ∀ row ∈ g, ∀ cell ∈ row, ∃ ch, cell = some ch ∧ ch ∈ ALPHABET := by
  rcases hpl : placeLoop shuffle (grid_size.getD settings.grid_default)
      settings.directions (sortWords words)
      (List.replicate (grid_size.getD settings.grid_default)
        (List.replicate (grid_size.getD settings.grid_default) none)) [] 0 s0
    with ⟨o, sPre⟩
  cases o with
  | none =>
    simp only [place_words_core, hpl] at h
    simp at h
  | some gp =>
    obtain ⟨gPre, placedPre⟩ := gp
    simp only [place_words_core, hpl, Prod.mk.injEq, Option.some.injEq] at h
    obtain ⟨⟨rfl, rfl⟩, _⟩ := h
    have hlet : lettersOk gPre := by
      refine placeLoop_lettersOk _ _ _ _ _ _ _ _ hpl
        (lettersOk_replicate _ _) fun w hw ch hch2 => ?_
      have hw2 : w ∈ words := by
        rw [sortWords, List.mem_mergeSort] at hw
        exact hw
      exact toUpper_mem_ALPHABET (halpha w hw2 ch hch2)
    intro row hrow cell hcell
    obtain ⟨ch, he, hor⟩ := fillGrid_cells hch gPre sPre row hrow cell hcell
    refine ⟨ch, he, ?_⟩
    rcases hor with hin | ⟨row0, hrow0, hm⟩
    · exact hin
    · exact hlet row0 hrow0 _ hm ch rfl

/-! ### Long words can never fit -/

theorem checkFits_false_of_long {g : Grid} {size : Nat} {w : List Char}
    {r c dr dc : Int} (hdr : dr = -1 ∨ dr = 0 ∨ dr = 1)
    (hdc : dc = -1 ∨ dc = 0 ∨ dc = 1) (hd : ¬(dr = 0 ∧ dc = 0))
    (hw : size < w.length) : checkFits g size w r c dr dc = false := by
  by_contra hcon
  rw [Bool.not_eq_false] at hcon
  have hb := (cellsInBounds_iff w.length r c dr dc).mp
    (checkFits_inBounds _ _ _ _ _ hcon)
  have h0 := hb 0 (by omega)
  have hs := hb size (by omega)
  simp only [Nat.cast_zero, zero_mul, add_zero] at h0
  rcases hdr with rfl | rfl | rfl <;> rcases hdc with rfl | rfl | rfl <;>
    first
      | exact hd ⟨rfl, rfl⟩
      | (simp only [mul_neg_one, mul_zero, mul_one, add_zero] at hs; omega)

theorem core_fail_long {σ : Type}
    {shuffle : List Cand → σ → List Cand × σ} {choice : σ → Char × σ}
    {settings : DifficultySettings} {words : List (List Char)}
    {grid_size : Option Nat} {s0 : σ}
    (hsh : ∀ (l : List Cand) (s : σ), ∀ x ∈ (shuffle l s).1, x ∈ l)
    (hdirs : ∀ d ∈ settings.directions,
      (d.1 = -1 ∨ d.1 = 0 ∨ d.1 = 1) ∧ (d.2 = -1 ∨ d.2 = 0 ∨ d.2 = 1) ∧
      ¬(d.1 = 0 ∧ d.2 = 0))
    (hlong : ∃ w ∈ words,
      grid_size.getD settings.grid_default < w.length) :
    (place_words_core shuffle choice settings words grid_size s0).1 =
      none := by
  obtain ⟨w, hw, hwlen⟩ := hlong
  rcases hsort : sortWords words with _ | ⟨w0, rest⟩
  · have : w ∈ sortWords words := by
      rw [sortWords, List.mem_mergeSort]
      exact hw
    rw [hsort] at this
    cases this
  · have hw0 : grid_size.getD settings.grid_default < w0.length :=
      Nat.lt_of_lt_of_le hwlen (sortWords_head_max hsort w hw)
    have hfail : ∀ cand ∈ (shuffle (buildCandidates
        (grid_size.getD settings.grid_default) settings.directions) s0).1,
        checkFits (List.replicate (grid_size.getD settings.grid_default)
          (List.replicate (grid_size.getD settings.grid_default) none))
          (grid_size.getD settings.grid_default) (upperWord w0)
          cand.r cand.c cand.dr cand.dc = false := by
      intro cand hc
      have hmem := mem_buildCandidates (hsh _ _ _ hc)
      obtain ⟨hd1, hd2, hd3⟩ := hdirs _ hmem.1
      exact checkFits_false_of_long hd1 hd2 hd3
        (by rw [upperWord, List.length_map]; exact hw0)
    simp only [place_words_core, hsort, placeLoop_fail_first hfail]

theorem cat_run :
    place_words_on_grid idShuffle constChoiceA [['C', 'A', 'T']]
      DifficultyLevel.easy (some 3) () = (some (catGrid, catPlaced), ()) := by
  simp only [place_words_on_grid, place_words_core, sortWords,
    List.mergeSort_singleton]
  rfl

theorem cat_lower_run :
    place_words_on_grid idShuffle constChoiceA [['c', 'a', 't']]
      DifficultyLevel.easy (some 3) () = (some (catGrid, catPlaced), ()) := by
  simp only [place_words_on_grid, place_words_core, sortWords,
    List.mergeSort_singleton]
  rfl

theorem cat_car_run :
    place_words_on_grid idShuffle constChoiceA [['C', 'A', 'T'], ['C', 'A', 'R']]
      DifficultyLevel.easy (some 3) () =
      (some (catCarGrid, catCarPlaced), ()) := by
  simp only [place_words_on_grid, place_words_core, sortWords,
    List.mergeSort_of_sorted (by decide :
      List.Pairwise (fun a b : List Char =>
        (fun a b : List Char => decide (b.length ≤ a.length)) a b)
      [['C', 'A', 'T'], ['C', 'A', 'R']])]
  rfl

theorem idShuffle_sub :
    ∀ (l : List Cand) (s : Unit), ∀ x ∈ (idShuffle l s).1, x ∈ l :=
  fun _ _ _ hx => hx

/-! ### The claims -/

/-- C1: for every successful call `place_words_on_grid(words, difficulty,
grid_size)` returning `(grid, placed)`, the list `placed` has exactly one
placement per input word (the recorded words are a permutation of the
uppercased input words), each input word has an entry whose recorded word has
the same length, and reading `len w` consecutive cells of `grid` from the
recorded start cell stepping by the recorded direction spells out the
recorded word, so every word is reconstructible from its placement. -/
theorem C1_coverage_readback {σ : Type}
    (shuffle : List Cand → σ → List Cand × σ) (choice : σ → Char × σ)
    (words : List (List Char)) (difficulty : DifficultyLevel)
    (grid_size : Option Nat) (s0 : σ) (g : Grid)
    (placed : List Placement) (s1 : σ)
    (hsh : ∀ (l : List Cand) (s : σ), ∀ x ∈ (shuffle l s).1, x ∈ l)
    (h : place_words_on_grid shuffle choice words difficulty grid_size s0 =
      (some (g, placed), s1)) :
    (placed.map Placement.word).Perm (words.map upperWord) ∧
    (∀ w ∈ words, ∃ p ∈ placed, p.word = upperWord w ∧
      p.word.length = w.length) ∧
    ∀ p ∈ placed,
      readCells g p.word.length p.pos.r p.pos.c p.pos.dr p.pos.dc =
        p.word.map some := by
  rw [place_words_on_grid] at h
  have hdir : ∀ d ∈ (difficulty_settings difficulty).directions,
      ¬(d.1 = 0 ∧ d.2 = 0) := by
    cases difficulty <;> decide
  have hwords := core_success_words h
  have hgood := core_success_good hsh hdir h
  have hperm : (placed.map Placement.word).Perm (words.map upperWord) := by
    rw [hwords]
    exact (sortWords_perm words).map upperWord
  refine ⟨hperm, ?_, fun p hp => (hgood p hp).1⟩
  intro w hw
  have hmem : upperWord w ∈ placed.map Placement.word :=
    hperm.mem_iff.mpr (List.mem_map_of_mem upperWord hw)
  obtain ⟨p, hp, hpe⟩ := List.mem_map.mp hmem
  exact ⟨p, hp, hpe, by rw [hpe, upperWord, List.length_map]⟩

theorem C1_coverage_readback_witness :
    (catPlaced.map Placement.word).Perm ([['C', 'A', 'T']].map upperWord) ∧
    (∀ w ∈ [['C', 'A', 'T']], ∃ p ∈ catPlaced, p.word = upperWord w ∧
      p.word.length = w.length) ∧
    ∀ p ∈ catPlaced,
      readCells catGrid p.word.length p.pos.r p.pos.c p.pos.dr p.pos.dc =
        p.word.map some :=
  C1_coverage_readback idShuffle constChoiceA [['C', 'A', 'T']]
    DifficultyLevel.easy (some 3) () catGrid catPlaced ()
    idShuffle_sub cat_run

/-- C2: non-conflict invariant: in every successful result, any two
placements agree at every shared cell — if cell `i` of placement `p1` and
cell `j` of placement `p2` are the same grid cell, the letters the two words
put there are identical (the scan accepts a candidate only if each of its
cells is empty or already holds exactly the needed letter, so commits never
overwrite a cell with a different letter). -/
theorem C2_non_conflict {σ : Type}
    (shuffle : List Cand → σ → List Cand × σ) (choice : σ → Char × σ)
    (words : List (List Char)) (difficulty : DifficultyLevel)
    (grid_size : Option Nat) (s0 : σ) (g : Grid)
    (placed : List Placement) (s1 : σ)
    (hsh : ∀ (l : List Cand) (s : σ), ∀ x ∈ (shuffle l s).1, x ∈ l)
    (h : place_words_on_grid shuffle choice words difficulty grid_size s0 =
      (some (g, placed), s1)) :
    ∀ p1 ∈ placed, ∀ p2 ∈ placed, ∀ i j : Nat,
      i < p1.word.length → j < p2.word.length →
      p1.pos.r + i * p1.pos.dr = p2.pos.r + j * p2.pos.dr →
      p1.pos.c + i * p1.pos.dc = p2.pos.c + j * p2.pos.dc →
      p1.word.getD i 'A' = p2.word.getD j 'A' := by
  rw [place_words_on_grid] at h
  have hdir : ∀ d ∈ (difficulty_settings difficulty).directions,
      ¬(d.1 = 0 ∧ d.2 = 0) := by
    cases difficulty <;> decide
  have hgood := core_success_good hsh hdir h
  intro p1 hp1 p2 hp2 i j hi hj hr hc
  have r1 := readCells_getD p1.word _ _ _ _ (hgood p1 hp1).1 i hi
  have r2 := readCells_getD p2.word _ _ _ _ (hgood p2 hp2).1 j hj
  rw [hr, hc] at r1
  rw [r1] at r2
  injection r2

theorem C2_non_conflict_witness :
    (Placement.mk ['C', 'A', 'T'] ⟨0, 0, 0, 1⟩).word.getD 0 'A' =
      (Placement.mk ['C', 'A', 'R'] ⟨0, 0, 1, 0⟩).word.getD 0 'A' :=
  C2_non_conflict idShuffle constChoiceA [['C', 'A', 'T'], ['C', 'A', 'R']]
    DifficultyLevel.easy (some 3) () catCarGrid catCarPlaced ()
    idShuffle_sub cat_car_run
    ⟨['C', 'A', 'T'], ⟨0, 0, 0, 1⟩⟩ (by decide)
    ⟨['C', 'A', 'R'], ⟨0, 0, 1, 0⟩⟩ (by decide)
    0 0 (by decide) (by decide) (by decide) (by decide)

/-- C3: on every successful call whose input words contain only (ASCII)
alphabetic characters, no cell of the returned grid is empty: every cell
holds exactly one uppercase letter `A`–`Z` (a letter of a placed word or a
filler letter drawn from the alphabet by the random chooser); and filling
never alters a cell that already holds a letter, i.e. filler goes only into
cells still empty after all words were placed. -/
theorem C3_full_population {σ : Type}
    (shuffle : List Cand → σ → List Cand × σ) (choice : σ → Char × σ)
    (words : List (List Char)) (difficulty : DifficultyLevel)
    (grid_size : Option Nat) (s0 : σ) (g : Grid)
    (placed : List Placement) (s1 : σ)
    (hch : ∀ s : σ, (choice s).1 ∈ ALPHABET)
    (halpha : ∀ w ∈ words, ∀ ch ∈ w, isAsciiAlpha ch = true)
    (h : place_words_on_grid shuffle choice words difficulty grid_size s0 =
      (some (g, placed), s1)) :
    (∀ row ∈ g, ∀ cell ∈ row, ∃ ch, cell = some ch ∧ ch ∈ ALPHABET) ∧
    ∀ (g0 : Grid) (s : σ) (r c : Int) (x : Char),
      getCell g0 r c = some x →
      getCell (fillGrid choice g0 s).1 r c = some x := by
  rw [place_words_on_grid] at h
  exact ⟨core_success_cells hch halpha h,
    fun g0 s r c x hx => getCell_fillGrid_some hx⟩

theorem C3_full_population_witness :
    (∀ row ∈ catGrid, ∀ cell ∈ row, ∃ ch, cell = some ch ∧ ch ∈ ALPHABET) ∧
    ∀ (g0 : Grid) (s : Unit) (r c : Int) (x : Char),
      getCell g0 r c = some x →
      getCell (fillGrid constChoiceA g0 s).1 r c = some x :=
  C3_full_population idShuffle constChoiceA [['C', 'A', 'T']]
    DifficultyLevel.easy (some 3) () catGrid catPlaced ()
    (fun _ => (by decide : 'A' ∈ ALPHABET)) (by decide) cat_run

/-- C4: every placement of a successful result is fully in bounds — for a
word of length `L` recorded at `(r, c, dr, dc)`, each cell
`(r + i·dr, c + i·dc)`, `i < L`, satisfies `0 ≤ row, col < size`; moreover
the algorithm tests bounds before each grid read and write, so the fallible
bounds-checked variants of the scan and the commit loop never fail: the scan
always equals `some` of the total scan, and the commit loop equals `some` of
the total commit whenever its cells are in bounds (as they are at every
commit, which happens only after a successful scan). -/
theorem C4_in_bounds_safe {σ : Type}
    (shuffle : List Cand → σ → List Cand × σ) (choice : σ → Char × σ)
    (words : List (List Char)) (difficulty : DifficultyLevel)
    (grid_size : Option Nat) (s0 : σ) (g : Grid)
    (placed : List Placement) (s1 : σ)
    (hsh : ∀ (l : List Cand) (s : σ), ∀ x ∈ (shuffle l s).1, x ∈ l)
    (h : place_words_on_grid shuffle choice words difficulty grid_size s0 =
      (some (g, placed), s1)) :
    (∀ p ∈ placed, ∀ i : Nat, i < p.word.length →
      0 ≤ p.pos.r + i * p.pos.dr ∧
      p.pos.r + i * p.pos.dr <
        ((grid_size.getD (difficulty_settings difficulty).grid_default :
          Nat) : Int) ∧
      0 ≤ p.pos.c + i * p.pos.dc ∧
      p.pos.c + i * p.pos.dc <
        ((grid_size.getD (difficulty_settings difficulty).grid_default :
          Nat) : Int)) ∧
    (∀ (g0 : Grid) (w : List Char) (r c dr dc : Int),
      gridDims g0 (grid_size.getD
        (difficulty_settings difficulty).grid_default) →
      checkFitsSafe g0
          (grid_size.getD (difficulty_settings difficulty).grid_default)
          w r c dr dc =
        some (checkFits g0
          (grid_size.getD (difficulty_settings difficulty).grid_default)
          w r c dr dc)) ∧
    ∀ (g0 : Grid) (w : List Char) (r c dr dc : Int),
      cellsInBounds
          (grid_size.getD (difficulty_settings difficulty).grid_default)
          w.length r c dr dc = true →
      writeWordSafe
          (grid_size.getD (difficulty_settings difficulty).grid_default)
          g0 w r c dr dc =
        some (writeWord g0 w r c dr dc) := by
  rw [place_words_on_grid] at h
  have hdir : ∀ d ∈ (difficulty_settings difficulty).directions,
      ¬(d.1 = 0 ∧ d.2 = 0) := by
    cases difficulty <;> decide
  have hgood := core_success_good hsh hdir h
  refine ⟨fun p hp i hi => ?_, fun g0 w r c dr dc hdims =>
    checkFitsSafe_eq hdims w r c dr dc,
    fun g0 w r c dr dc hb => writeWordSafe_eq w g0 r c dr dc hb⟩
  exact (cellsInBounds_iff _ _ _ _ _).mp (hgood p hp).2.1 i hi

theorem C4_in_bounds_safe_witness :
    (∀ p ∈ catPlaced, ∀ i : Nat, i < p.word.length →
      0 ≤ p.pos.r + i * p.pos.dr ∧
      p.pos.r + i * p.pos.dr < (((some 3).getD
        (difficulty_settings DifficultyLevel.easy).grid_default : Nat) :
          Int) ∧
      0 ≤ p.pos.c + i * p.pos.dc ∧
      p.pos.c + i * p.pos.dc < (((some 3).getD
        (difficulty_settings DifficultyLevel.easy).grid_default : Nat) :
          Int)) ∧
    (∀ (g0 : Grid) (w : List Char) (r c dr dc : Int),
      gridDims g0 ((some 3).getD
        (difficulty_settings DifficultyLevel.easy).grid_default) →
      checkFitsSafe g0 ((some 3).getD
          (difficulty_settings DifficultyLevel.easy).grid_default)
          w r c dr dc =
        some (checkFits g0 ((some 3).getD
          (difficulty_settings DifficultyLevel.easy).grid_default)
          w r c dr dc)) ∧
    ∀ (g0 : Grid) (w : List Char) (r c dr dc : Int),
      cellsInBounds ((some 3).getD
          (difficulty_settings DifficultyLevel.easy).grid_default)
          w.length r c dr dc = true →
      writeWordSafe ((some 3).getD
          (difficulty_settings DifficultyLevel.easy).grid_default)
          g0 w r c dr dc =
        some (writeWord g0 w r c dr dc) :=
  C4_in_bounds_safe idShuffle constChoiceA [['C', 'A', 'T']]
    DifficultyLevel.easy (some 3) () catGrid catPlaced ()
    idShuffle_sub cat_run

/-- C5: if for some word no candidate among the grid's enumerated start
positions and directions fits, `place_words_on_grid` returns the failure
signal `None` immediately, with the remaining words never processed and no
partial result; the output is independent of the `attempts` counter, and,
starting from the counter's initial value 0, the `attempts > max_attempts`
exhaustion branch is never reached (`max_attempts` being 500). -/
theorem C5_fail_fast {σ : Type} (shuffle : List Cand → σ → List Cand × σ)
    (size : Nat) (directions : List (Int × Int)) :
    (∀ (w : List Char) (rest : List (List Char)) (g : Grid)
        (placed : List Placement) (attempts : Nat) (s : σ),
      (∀ (l : List Cand) (s2 : σ), ∀ x ∈ (shuffle l s2).1, x ∈ l) →
      (∀ cand ∈ buildCandidates size directions,
        checkFits g size (upperWord w) cand.r cand.c cand.dr cand.dc =
          false) →
      placeLoop shuffle size directions (w :: rest) g placed attempts s =
        (none, (shuffle (buildCandidates size directions) s).2)) ∧
    (∀ (ws : List (List Char)) (g : Grid) (placed : List Placement)
        (a1 a2 : Nat) (s : σ),
      placeLoop shuffle size directions ws g placed a1 s =
        placeLoop shuffle size directions ws g placed a2 s) ∧
    (∀ (ws : List (List Char)) (g : Grid) (attempts : Nat) (s : σ),
      attempts < max_attempts →
      placeLoopHitsCap shuffle size directions ws g attempts s = false) ∧
    max_attempts = 500 := by
  refine ⟨?_, fun ws g placed a1 a2 s =>
      placeLoop_attempts_indep ws g placed a1 a2 s,
    fun ws g a s ha => placeLoopHitsCap_false shuffle size directions
      ws g a s ha, rfl⟩
  intro w rest g placed attempts s hsh hfail
  exact placeLoop_fail_first fun cand hc => hfail cand (hsh _ _ _ hc)

theorem C5_fail_fast_witness :
    placeLoop idShuffle 1 [(0, 1)] [['A', 'A'], ['B']] [[none]] [] 0 () =
      (none, (idShuffle (buildCandidates 1 [(0, 1)]) ()).2) ∧
    placeLoop idShuffle 1 [(0, 1)] [['A', 'A'], ['B']] [[none]] [] 3 () =
      placeLoop idShuffle 1 [(0, 1)] [['A', 'A'], ['B']] [[none]] [] 7 () ∧
    placeLoopHitsCap idShuffle 1 [(0, 1)] [['A', 'A'], ['B']] [[none]] 0 () =
      false :=
  ⟨(C5_fail_fast idShuffle 1 [(0, 1)]).1 ['A', 'A'] [['B']] [[none]] [] 0 ()
      idShuffle_sub (by decide),
   (C5_fail_fast idShuffle 1 [(0, 1)]).2.1 [['A', 'A'], ['B']] [[none]] []
      3 7 (),
   (C5_fail_fast idShuffle 1 [(0, 1)]).2.2.1 [['A', 'A'], ['B']] [[none]]
      0 () (by decide)⟩

/-- C6: for every word list containing a word longer than the grid size and
every difficulty profile (all three profiles' direction vectors have
components in `{-1, 0, 1}` and none is `(0, 0)`), `place_words_on_grid`
returns the failure signal `None` — no straight line of that length fits in
the grid in any allowed direction, so every candidate fails the bounds
check. -/
theorem C6_fail_on_long_word {σ : Type}
    (shuffle : List Cand → σ → List Cand × σ) (choice : σ → Char × σ)
    (words : List (List Char)) (difficulty : DifficultyLevel)
    (grid_size : Option Nat) (s0 : σ)
    (hsh : ∀ (l : List Cand) (s : σ), ∀ x ∈ (shuffle l s).1, x ∈ l)
    (hlong : ∃ w ∈ words,
      grid_size.getD (difficulty_settings difficulty).grid_default <
        w.length) :
    (place_words_on_grid shuffle choice words difficulty grid_size s0).1 =
      none := by
  rw [place_words_on_grid]
  refine core_fail_long hsh ?_ hlong
  cases difficulty <;> decide

theorem C6_fail_on_long_word_witness :
    (place_words_on_grid idShuffle constChoiceA
      [['A', 'B', 'C', 'D']] DifficultyLevel.hard (some 3) ()).1 = none :=
  C6_fail_on_long_word idShuffle constChoiceA [['A', 'B', 'C', 'D']]
    DifficultyLevel.hard (some 3) () idShuffle_sub
    ⟨['A', 'B', 'C', 'D'], by decide, by decide⟩

/-- C7: words are attempted in descending order of length — the processed
list is the stable descending-length sort of the input (words of equal
length keep their relative input order: for every length the sublist of
that length is unchanged), it is a permutation of the input, and on success
the returned placements are exactly in this processing order (their recorded
words are the uppercased sorted words, in order). -/
theorem C7_processing_order {σ : Type}
    (shuffle : List Cand → σ → List Cand × σ) (choice : σ → Char × σ)
    (words : List (List Char)) (difficulty : DifficultyLevel)
    (grid_size : Option Nat) (s0 : σ) (g : Grid)
    (placed : List Placement) (s1 : σ)
    (h : place_words_on_grid shuffle choice words difficulty grid_size s0 =
      (some (g, placed), s1)) :
    placed.map Placement.word = (sortWords words).map upperWord ∧
    (sortWords words).Pairwise (fun a b => b.length ≤ a.length) ∧
    (∀ n : Nat, (sortWords words).filter (fun w => decide (w.length = n)) =
      words.filter (fun w => decide (w.length = n))) ∧
    (sortWords words).Perm words := by
  rw [place_words_on_grid] at h
  exact ⟨core_success_words h, sortWords_sorted words,
    fun n => sortWords_filter_length words n, sortWords_perm words⟩

theorem C7_processing_order_witness :
    catCarPlaced.map Placement.word =
      (sortWords [['C', 'A', 'T'], ['C', 'A', 'R']]).map upperWord ∧
    (sortWords [['C', 'A', 'T'], ['C', 'A', 'R']]).Pairwise
      (fun a b => b.length ≤ a.length) ∧
    (∀ n : Nat,
      (sortWords [['C', 'A', 'T'], ['C', 'A', 'R']]).filter
          (fun w => decide (w.length = n)) =
        [['C', 'A', 'T'], ['C', 'A', 'R']].filter
          (fun w => decide (w.length = n))) ∧
    (sortWords [['C', 'A', 'T'], ['C', 'A', 'R']]).Perm
      [['C', 'A', 'T'], ['C', 'A', 'R']] :=
  C7_processing_order idShuffle constChoiceA
    [['C', 'A', 'T'], ['C', 'A', 'R']] DifficultyLevel.easy (some 3) ()
    catCarGrid catCarPlaced () cat_car_run

/-- C8: determinism modulo randomness: the embedded
`place_words_on_grid` is a pure function of the words, the difficulty, the
grid size and the random-generator state — two calls with identical
arguments (in particular an identical generator state, i.e. a fixed seed)
return identical `(grid, placements)` results and identical final states;
no other state influences the output. -/
theorem C8_determinism {σ : Type}
    (shuffle : List Cand → σ → List Cand × σ) (choice : σ → Char × σ)
    (words1 words2 : List (List Char)) (d1 d2 : DifficultyLevel)
    (gs1 gs2 : Option Nat) (s1 s2 : σ)
    (hw : words1 = words2) (hd : d1 = d2) (hg : gs1 = gs2)
    (hs : s1 = s2) :
    place_words_on_grid shuffle choice words1 d1 gs1 s1 =
      place_words_on_grid shuffle choice words2 d2 gs2 s2 := by
  subst hw hd hg hs
  rfl

theorem C8_determinism_witness :
    place_words_on_grid idShuffle constChoiceA [['C', 'A', 'T']]
        DifficultyLevel.easy (some 3) () =
      place_words_on_grid idShuffle constChoiceA [['C', 'A', 'T']]
        DifficultyLevel.easy (some 3) () :=
  C8_determinism idShuffle constChoiceA [['C', 'A', 'T']] [['C', 'A', 'T']]
    DifficultyLevel.easy DifficultyLevel.easy (some 3) (some 3) () ()
    rfl rfl rfl rfl

/-- C9: the engine normalizes case itself: each word is uppercased before
any candidate is tried, so pre-uppercasing the input does not change the
result at all (lowercase input neither fails nor mismatches where uppercase
input would not), and on success every recorded placement word is the
uppercase form of an input word, the full list being the uppercased sorted
input words. -/
theorem C9_engine_uppercases {σ : Type}
    (shuffle : List Cand → σ → List Cand × σ) (choice : σ → Char × σ)
    (words : List (List Char)) (difficulty : DifficultyLevel)
    (grid_size : Option Nat) (s0 : σ) :
    place_words_on_grid shuffle choice (words.map upperWord) difficulty
        grid_size s0 =
      place_words_on_grid shuffle choice words difficulty grid_size s0 ∧
    ∀ (g : Grid) (placed : List Placement) (s1 : σ),
      place_words_on_grid shuffle choice words difficulty grid_size s0 =
        (some (g, placed), s1) →
      placed.map Placement.word = (sortWords words).map upperWord ∧
      ∀ p ∈ placed, ∃ w ∈ words, p.word = upperWord w := by
  constructor
  · simp only [place_words_on_grid, place_words_core,
      sortWords_map_upperWord, placeLoop_map_upperWord]
  · intro g placed s1 h
    rw [place_words_on_grid] at h
    have hwords := core_success_words h
    refine ⟨hwords, fun p hp => ?_⟩
    have hmem : p.word ∈ placed.map Placement.word :=
      List.mem_map_of_mem _ hp
    rw [hwords] at hmem
    obtain ⟨w, hw, he⟩ := List.mem_map.mp hmem
    exact ⟨w, (sortWords_perm words).mem_iff.mp hw, he.symm⟩

theorem C9_engine_uppercases_witness :
    place_words_on_grid idShuffle constChoiceA
        ([['c', 'a', 't']].map upperWord) DifficultyLevel.easy (some 3) () =
      place_words_on_grid idShuffle constChoiceA [['c', 'a', 't']]
        DifficultyLevel.easy (some 3) () ∧
    (catPlaced.map Placement.word =
      (sortWords [['c', 'a', 't']]).map upperWord ∧
      ∀ p ∈ catPlaced, ∃ w ∈ [['c', 'a', 't']], p.word = upperWord w) :=
  ⟨(C9_engine_uppercases idShuffle constChoiceA [['c', 'a', 't']]
      DifficultyLevel.easy (some 3) ()).1,
   (C9_engine_uppercases idShuffle constChoiceA [['c', 'a', 't']]
      DifficultyLevel.easy (some 3) ()).2 catGrid catPlaced ()
      cat_lower_run⟩

/-- C10: the `allow_reversed` field of a difficulty-settings record has no
effect on the engine: the body reads it but never uses it, so two settings
records agreeing on everything except `allow_reversed` (same name, sizes
and directions list) give identical results for every input and every
random-generator state; reversed placements can arise only from negative
direction vectors in the `directions` list. -/
theorem C10_allow_reversed_unused {σ : Type}
    (shuffle : List Cand → σ → List Cand × σ) (choice : σ → Char × σ)
    (st1 st2 : DifficultySettings) (hname : st1.name = st2.name)
    (hmin : st1.grid_min = st2.grid_min) (hmax : st1.grid_max = st2.grid_max)
    (hdef : st1.grid_default = st2.grid_default)
    (hdirs : st1.directions = st2.directions) :
    ∀ (words : List (List Char)) (grid_size : Option Nat) (s0 : σ),
      place_words_core shuffle choice st1 words grid_size s0 =
        place_words_core shuffle choice st2 words grid_size s0 := by
  intro words grid_size s0
  simp only [place_words_core, hdef, hdirs]

theorem C10_allow_reversed_unused_witness :
    place_words_core idShuffle constChoiceA
        { name := "Fácil", grid_min := 8, grid_max := 12, grid_default := 10,
          directions := [(0, 1), (1, 0)], allow_reversed := false }
        [['C', 'A', 'T']] (some 3) () =
      place_words_core idShuffle constChoiceA
        { name := "Fácil", grid_min := 8, grid_max := 12, grid_default := 10,
          directions := [(0, 1), (1, 0)], allow_reversed := true }
        [['C', 'A', 'T']] (some 3) () :=
  C10_allow_reversed_unused idShuffle constChoiceA _ _ rfl rfl rfl rfl rfl
    [['C', 'A', 'T']] (some 3) ()

end SopaLibros
